import Mathlib

/-!
Shallow embedding of the cloudapp-rescue exporter core, in
src/clrescue/client.py.  The embedding covers the metadata normalizer
(Drop._process, Drop._apply, Drop._json_map), item construction
(Drop.__init__), the catalog enumerator (Drop.__class_getitem__), and
persistence (Drop.save).  Network and filesystem effects are made explicit:
the remote service is a record of pure functions (status codes and JSON
bodies), and save returns both the updated filesystem state and an ordered
effect log.
-/

namespace CLRescue

/-- JSON-ish values occurring in remote item records.  After Drop._process
runs, values of timestamp fields are datetime objects, so those may also
appear inside the stored raw snapshot. -/
inductive JVal where
  | null : JVal
  | bool (b : Bool) : JVal
  | int (n : Int) : JVal
  | str (s : String) : JVal
  | dt (y mo d hh mi ss : Nat) : JVal
deriving DecidableEq, Repr

/-- Python truthiness for the values of JVal, as used by the conditions
of Drop.save (an if over self.size) and the pagination loop. -/
def truthy : JVal → Bool
  | .null => false
  | .bool b => b
  | .int n => n != 0
  | .str s => s != ""
  | .dt _ _ _ _ _ _ => true

/-- A raw remote JSON record: an association list of field name to value,
in server delivery order.  Keys are unique in practice (Python dicts). -/
abbrev Record := List (String × JVal)

/-- First value stored under a key, if any: Python dict access semantics. -/
def getFieldOpt (r : Record) (k : String) : Option JVal :=
  (r.find? (fun p => p.1 == k)).map (fun p => p.2)

/-- Value of metadata.get(key, None): the stored value, or null when the
key is absent. -/
def getField (r : Record) (k : String) : JVal :=
  (getFieldOpt r k).getD .null

/-- Leap year rule used by datetime validation. -/
def isLeap (y : Nat) : Bool :=
  y % 4 == 0 && (y % 100 != 0 || y % 400 == 0)

/-- Days in a month, Gregorian, as validated by datetime.strptime. -/
def daysInMonth (y m : Nat) : Nat :=
  if m == 2 then (if isLeap y then 29 else 28)
  else if m == 4 || m == 6 || m == 9 || m == 11 then 30
  else 31

/-- Accumulator loop extending a greedy digit run by at most mx further
digits. -/
def takeDigitsAux : Nat → Nat → List Char → Nat × List Char
  | acc, 0, l => (acc, l)
  | acc, _ + 1, [] => (acc, [])
  | acc, mx + 1, c :: rest =>
    if c.isDigit then takeDigitsAux (acc * 10 + (c.toNat - 48)) mx rest
    else (acc, c :: rest)

/-- Greedy run of at most mx digits from the front of a character list,
returning its value and the rest.  Mirrors the bounded digit groups of
strptime directives such as a four digit year or two digit month; at least
one digit is required. -/
def takeDigits (mx : Nat) (l : List Char) : Option (Nat × List Char) :=
  match l with
  | [] => none
  | c :: rest =>
    if c.isDigit then some (takeDigitsAux (c.toNat - 48) (mx - 1) rest)
    else none

/-- Literal character expected next, strptime style. -/
def expectChar (c : Char) : List Char → Option (List Char)
  | [] => none
  | x :: rest => if x == c then some rest else none

/-- Parse the %Y-%m-%d leading portion shared by the two strptime patterns
of Drop._process, without yet validating ranges. -/
def parseYmd (l : List Char) : Option (Nat × Nat × Nat × List Char) := do
  let (y, l) ← takeDigits 4 l
  let l ← expectChar '-' l
  let (m, l) ← takeDigits 2 l
  let l ← expectChar '-' l
  let (d, l) ← takeDigits 2 l
  pure (y, m, d, l)

/-- Range validation performed by the datetime constructor: year within
1..9999, real calendar date. -/
def validYmd (y m d : Nat) : Bool :=
  1 ≤ y && y ≤ 9999 && 1 ≤ m && m ≤ 12 && 1 ≤ d && d ≤ daysInMonth y m

/-- Embedding of datetime.strptime(s, "%Y-%m-%dT%H:%M:%S"): full ISO-like
timestamp, entire string consumed, all fields range checked. -/
def parseDT (s : String) : Option JVal := do
  let (y, m, d, l) ← parseYmd s.toList
  let l ← expectChar 'T' l
  let (hh, l) ← takeDigits 2 l
  let l ← expectChar ':' l
  let (mi, l) ← takeDigits 2 l
  let l ← expectChar ':' l
  let (ss, l) ← takeDigits 2 l
  if l.isEmpty && validYmd y m d && hh ≤ 23 && mi ≤ 59 && ss ≤ 59 then
    pure (.dt y m d hh mi ss)
  else none

/-- Embedding of datetime.strptime(s, "%Y-%m-%d"): date only, midnight. -/
def parseD (s : String) : Option JVal := do
  let (y, m, d, l) ← parseYmd s.toList
  if l.isEmpty && validYmd y m d then
    pure (.dt y m d 0 0 0)
  else none

/-- Value of s.rstrip with a Z argument: all trailing Z characters
removed. -/
def rstripZ (s : String) : String :=
  ⟨(s.toList.reverse.dropWhile (fun c => c == 'Z')).reverse⟩

/-- Hex digit value, for percent decoding. -/
def hexVal (c : Char) : Option Nat :=
  if c.isDigit then some (c.toNat - 48)
  else if 'a' ≤ c && c ≤ 'f' then some (c.toNat - 97 + 10)
  else if 'A' ≤ c && c ≤ 'F' then some (c.toNat - 65 + 10)
  else none

/-- Percent decoding over characters.  Models urllib.parse.unquote for
single byte escapes: a percent followed by two hex digits becomes the
character of that code; an invalid escape is kept verbatim.  Multi byte
UTF-8 escape sequences are out of scope of the claims. -/
def unquoteList : List Char → List Char
  | [] => []
  | '%' :: a :: b :: rest =>
    match hexVal a, hexVal b with
    | some x, some y => Char.ofNat (16 * x + y) :: unquoteList rest
    | _, _ => '%' :: unquoteList (a :: b :: rest)
  | c :: rest => c :: unquoteList rest

/-- Embedding of urllib.parse.unquote restricted to single byte escapes. -/
def unquote (s : String) : String :=
  ⟨unquoteList s.toList⟩

/-- Suffix test str.endswith, over the character lists so that it is
structurally recursive. -/
def strEndsWith (s post : String) : Bool :=
  s.toList.reverse.take post.toList.length == post.toList.reverse

/-- One field of Drop._process: only string values are touched; the
file_name key is percent decoded; keys ending in _at with a non empty value
are parsed as timestamps, first with the full pattern on the Z stripped
value, then, on failure, with the date pattern on the original value; if
both patterns fail, strptime raises ValueError, modelled as an error. -/
def processField (k : String) (v : JVal) : Except Unit JVal :=
  match v with
  | .str s =>
    if k == "file_name" then .ok (.str (unquote s))
    else if strEndsWith k "_at" && s != "" then
      match parseDT (rstripZ s) with
      | some d => .ok d
      | none =>
        match parseD s with
        | some d => .ok d
        | none => .error ()
    else .ok (.str s)
  | v => .ok v

/-- Drop._process over a whole record: every field is rewritten in place,
in order; the first strptime failure aborts construction. -/
def processRecord : Record → Except Unit Record
  | [] => .ok []
  | (k, v) :: rest =>
    match processField k v with
    | .error e => .error e
    | .ok v2 =>
      match processRecord rest with
      | .error e => .error e
      | .ok r2 => .ok ((k, v2) :: r2)

/-- Drop._json_map: ordered field mapping table, candidate raw keys in
priority order against the canonical destination attribute. -/
def json_map : List (List String × String) :=
  [ (["id"], "id"),
    (["slug"], "slug"),
    (["created_at"], "uploaded"),
    (["item_type"], "type"),
    (["name"], "name"),
    (["redirect_url"], "target"),
    (["file_name", "name"], "original"),
    (["view_counter"], "views"),
    (["source_url", "remote_url"], "content"),
    (["stats_url"], "_stats"),
    (["content_length"], "size"),
    (["favourite"], "favourite") ]

/-- Inner loop of Drop._apply for one mapping entry: the first candidate
key that is present with a non null value wins; otherwise the destination
is explicitly set to null. -/
def firstNonNull (r : Record) : List String → JVal
  | [] => .null
  | k :: ks =>
    if getField r k != .null then getField r k else firstNonNull r ks

/-- Canonical attributes of a Drop after Drop._apply, plus the raw
processed snapshot (self._data) and the enumeration context fields, which
are only assigned during bulk enumeration. -/
structure Drop where
  id : JVal
  slug : JVal
  uploaded : JVal
  type : JVal
  name : JVal
  target : JVal
  original : JVal
  views : JVal
  content : JVal
  _stats : JVal
  size : JVal
  favourite : JVal
  index : Option Nat := none
  total : Option JVal := none
  _data : Record
deriving DecidableEq, Repr

/-- Attribute assignment of Drop._apply given the already processed
record: each destination of the mapping table receives its first present
non null candidate. -/
def mkDrop (r : Record) : Drop :=
  { id := firstNonNull r ["id"],
    slug := firstNonNull r ["slug"],
    uploaded := firstNonNull r ["created_at"],
    type := firstNonNull r ["item_type"],
    name := firstNonNull r ["name"],
    target := firstNonNull r ["redirect_url"],
    original := firstNonNull r ["file_name", "name"],
    views := firstNonNull r ["view_counter"],
    content := firstNonNull r ["source_url", "remote_url"],
    _stats := firstNonNull r ["stats_url"],
    size := firstNonNull r ["content_length"],
    favourite := firstNonNull r ["favourite"],
    _data := r }

/-- Canonical attribute of a Drop by destination name, for stating the
mapping table contract uniformly. -/
def attrOf (d : Drop) : String → JVal
  | "id" => d.id
  | "slug" => d.slug
  | "uploaded" => d.uploaded
  | "type" => d.type
  | "name" => d.name
  | "target" => d.target
  | "original" => d.original
  | "views" => d.views
  | "content" => d.content
  | "_stats" => d._stats
  | "size" => d.size
  | "favourite" => d.favourite
  | _ => .null

/-- Drop._apply: run the in place pre processing pass, keep the processed
record as the raw snapshot, then evaluate the mapping table. -/
def applyMap (r : Record) : Except Unit Drop :=
  match processRecord r with
  | .error e => .error e
  | .ok r2 => .ok (mkDrop r2)

/-- Construction failures of Drop.__init__: the ValueError raised on a non
OK detail fetch status carries the observed status code; the ValueError
raised by strptime inside the normalization pass does not. -/
inductive ConstructError where
  | retrieval (status : Nat) : ConstructError
  | normalizationFailure : ConstructError
deriving DecidableEq, Repr

/-- The remote service as observed by the client: a per slug detail fetch
returning the HTTP status and the JSON body (Drop.__init__ builds the URI
by appending the slug value to the base), and a content fetch returning the
bytes streamed to disk by Drop.save. -/
structure API where
  detail : JVal → Nat × Record
  contentOf : JVal → List Nat

/-- HTTP status of the requests codes.ok constant. -/
def codes_ok : Nat := 200

/-- Drop.__init__ on the by identifier path: fetch the detail record for
the slug, raise on a non OK status, otherwise normalize.  The slug value
is whatever object the caller passes; enumeration passes the raw listing
field. -/
def constructBySlug (api : API) (slug : JVal) : Except ConstructError Drop :=
  let r := api.detail slug
  if r.1 ≠ codes_ok then .error (.retrieval r.1)
  else
    match applyMap r.2 with
    | .ok d => .ok d
    | .error _ => .error .normalizationFailure

/-- CloudAppClient.__getitem__: direct lookup by slug, errors propagate. -/
def clientLookup (api : API) (slug : String) : Except ConstructError Drop :=
  constructBySlug api (.str slug)

/-- One element of the enumeration output: a hydrated Drop, or the raw
listing record when the per item construction raised ValueError. -/
inductive Out where
  | item (d : Drop) : Out
  | raw (r : Record) : Out
deriving DecidableEq, Repr

/-- One listing page response: the embedded records, the href of
links.next_url when the chain of gets finds one (None models any missing
level), and the value of meta.count. -/
structure Page where
  data : List Record
  next : Option String
  count : JVal
deriving DecidableEq, Repr

/-- Pagination guard of Drop.__class_getitem__: truthiness of the value of
result.get(links).get(next_url).get(href, None). -/
def hasNext (p : Page) : Bool :=
  match p.next with
  | some s => s != ""
  | none => false

/-- Inner per page loop of Drop.__class_getitem__: each record is
constructed by identifier; on ValueError the raw record is yielded and the
loop continues; on success the drop is annotated with the next counter
value and the count of the current page before being yielded.  Returns the
counter state after the page together with the yields. -/
def processPage (api : API) : Nat → JVal → List Record → Nat × List Out
  | ctr, _, [] => (ctr, [])
  | ctr, cnt, r :: rs =>
    match constructBySlug api (getField r "slug") with
    | .error _ =>
      let rec2 := processPage api ctr cnt rs
      (rec2.1, .raw r :: rec2.2)
    | .ok d =>
      let rec2 := processPage api (ctr + 1) cnt rs
      (rec2.1, .item { d with index := some ctr, total := some cnt } :: rec2.2)

/-- Drop.__class_getitem__ as a function of the successive page responses
the generator observes: the first element is the response of the initial
listing request, and each following element is the response obtained by
getting the next_url href of the previous page.  The loop tests the next link
of the current page BEFORE iterating its records, so a page without a next
link terminates enumeration with its records unprocessed. -/
def enumPages (api : API) : Nat → List Page → List Out
  | _, [] => []
  | ctr, p :: rest =>
    if hasNext p then
      let step := processPage api ctr p.count p.data
      step.2 ++ enumPages api step.1 rest
    else []

/-- Bytes or text stored at a path of the local filesystem model. -/
inductive FileData where
  | text (s : String) : FileData
  | binary (b : List Nat) : FileData
  | plistData (url : JVal) : FileData
deriving DecidableEq, Repr

/-- File size as returned by os.path.getsize.  Drop.save only queries the
size of content files, which are binary. -/
def fileSize : FileData → Nat
  | .text s => s.length
  | .binary b => b.length
  | .plistData _ => 0

/-- Local filesystem state: association of absolute path to contents. -/
abbrev FS := List (String × FileData)

/-- Contents at a path, if the file exists. -/
def fsGet (fs : FS) (p : String) : Option FileData :=
  (fs.find? (fun e => e.1 == p)).map (fun e => e.2)

/-- Write a file, overwriting any previous contents at the path. -/
def fsSet (fs : FS) (p : String) (d : FileData) : FS :=
  (p, d) :: fs.filter (fun e => e.1 != p)

/-- Name of a path: the part after the last slash. -/
def pathName (p : String) : String :=
  ⟨(p.toList.reverse.takeWhile (fun c => c != '/')).reverse⟩

/-- Directory prefix of a path, kept verbatim (up to and including the
last slash, empty when there is none). -/
def pathDir (p : String) : String :=
  ⟨(p.toList.reverse.dropWhile (fun c => c != '/')).reverse⟩

/-- Suffix start of a file name under pathlib rules: position of the last
dot when it is neither the leading character nor the final one; otherwise
the name has no replaceable suffix. -/
def stemLength (name : List Char) : Nat :=
  let n := name.length
  (((List.range n).filter
      (fun i => name.getD i ' ' == '.' && decide (0 < i) && decide (i < n - 1))).getLast?).getD n

/-- Embedding of pathlib.PurePath.with_suffix: the final extension of the
name, when present, is REPLACED by the new suffix; a name without an
extension has the suffix appended. -/
def withSuffix (p : String) (suffix : String) : String :=
  pathDir p ++ ⟨(pathName p).toList.take (stemLength (pathName p).toList)⟩ ++ suffix

/-- Rendering of one value by the deterministic JSON dump.  The exact text
is irrelevant to the claims; what matters is that the dump is a pure
function of the stored record. -/
def dumpVal : JVal → String
  | .null => "null"
  | .bool b => if b then "true" else "false"
  | .int n => toString n
  | .str s => "\"" ++ s ++ "\""
  | .dt y mo d hh mi ss =>
    "date(" ++ toString y ++ "," ++ toString mo ++ "," ++ toString d ++ ","
      ++ toString hh ++ "," ++ toString mi ++ "," ++ toString ss ++ ")"

/-- Insertion sort of record fields by key, modelling sort_keys=True. -/
def sortFields : Record → Record
  | [] => []
  | e :: rest => insertField e (sortFields rest)
where
  insertField (e : String × JVal) : Record → Record
    | [] => [e]
    | f :: fs => if e.1 ≤ f.1 then e :: f :: fs else f :: insertField e fs

/-- Embedding of bson.json_util.dumps(data, indent=4, sort_keys=True): a
deterministic, key sorted serialization of the record.  Byte level layout
is abstracted; determinism and key sorting are kept. -/
def dumps (r : Record) : String :=
  "\x7b\n" ++ String.intercalate ",\n"
    ((sortFields r).map (fun e => "    " ++ dumpVal (.str e.1) ++ ": " ++ dumpVal e.2))
  ++ "\n\x7d"

/-- Side effects of one Drop.save run, in program order.  The utime effect
records the value of self.uploaded whose timetuple is converted by mktime
and applied to both the access and modification times; the timezone
dependent conversion itself is abstracted into the recorded value. -/
inductive Effect where
  | mkdirParents (dir : String) : Effect
  | writeInfo (path : String) (bytes : String) : Effect
  | writeWebloc (path : String) (url : JVal) : Effect
  | download (uri : JVal) (path : String) : Effect
  | utime (path : String) (uploaded : JVal) : Effect
deriving DecidableEq, Repr

/-- Python inequality getsize(target) != self.size: int against int
compares numerically, int against any other type is unequal. -/
def sizeNe (n : Nat) (v : JVal) : Bool :=
  match v with
  | .int m => (n : Int) != m
  | _ => true

/-- Download condition of Drop.save over the filesystem state reached
after the info snapshot write: the target does not exist, or self.size is
truthy and the size on disk differs from it. -/
def needsDownload (fs1 : FS) (d : Drop) (path : String) : Bool :=
  match fsGet fs1 path with
  | none => true
  | some f => truthy d.size && sizeNe (fileSize f) d.size

/-- The storage path format string of Drop._storage, evaluated against the
drop.  Only defined when uploaded is a datetime, as attribute access on
anything else would raise; str() of the remaining values is rendered
through dumpVal for the non string cases. -/
def fmtVal : JVal → String
  | .str s => s
  | v => dumpVal v

/-- Default save path: year/month/day of uploaded, then id, slug, type and
original joined by double dashes. -/
def storagePath (d : Drop) : String :=
  match d.uploaded with
  | .dt y mo dd _ _ _ =>
    toString y ++ "/" ++ toString mo ++ "/" ++ toString dd ++ "/"
      ++ fmtVal d.id ++ "--" ++ fmtVal d.slug ++ "--" ++ fmtVal d.type
      ++ "--" ++ fmtVal d.original
  | _ => ""

/-- Drop.save.  The optional path argument falls back to the storage
format when absent or falsy.  Path absolutization is modelled as the
identity (paths are compared verbatim).  Effects are returned in program
order: mkdir of the parent, the unconditional info snapshot write, then
either the webloc write (bookmarks) or the conditional content download,
and finally the utime on the file that the local variable target points at
by then. -/
def save (api : API) (fs : FS) (d : Drop) (pathArg : Option String) : FS × List Effect :=
  let path :=
    match pathArg with
    | some p => if p == "" then storagePath d else p
    | none => storagePath d
  let infoPath := withSuffix path ".info.json"
  let infoBytes := dumps d._data
  let fs1 := fsSet fs infoPath (.text infoBytes)
  let pre := [Effect.mkdirParents (pathDir path), Effect.writeInfo infoPath infoBytes]
  if d.type == .str "bookmark" then
    let wpath := withSuffix path ".webloc"
    (fsSet fs1 wpath (.plistData d.target),
     pre ++ [Effect.writeWebloc wpath d.target, Effect.utime wpath d.uploaded])
  else
    if needsDownload fs1 d path then
      let bytes := api.contentOf d.content
      (fsSet fs1 path (.binary bytes),
       pre ++ [Effect.download d.content path, Effect.utime path d.uploaded])
    else
      (fs1, pre ++ [Effect.utime path d.uploaded])

/-! Shared helper lemmas about the filesystem model, paths and the
normalizer. -/

theorem fsGet_fsSet_self (fs : FS) (p : String) (x : FileData) :
    fsGet (fsSet fs p x) p = some x := by
  simp [fsGet, fsSet, List.find?]

theorem find?_filter_ne (fs : FS) (p q : String) (h : q ≠ p) :
    List.find? (fun e => e.1 == q) (fs.filter (fun e => e.1 != p))
      = List.find? (fun e => e.1 == q) fs := by
  induction fs with
  | nil => rfl
  | cons a rest ih =>
    by_cases ha : a.1 = q
    · subst ha
      have h1 : (a.1 != p) = true := bne_iff_ne.mpr h
      simp [List.filter, List.find?, h1]
    · have h2 : (a.1 == q) = false := beq_eq_false_iff_ne.mpr ha
      have h4 : (p == q) = false := beq_eq_false_iff_ne.mpr (Ne.symm h)
      by_cases hp : a.1 = p
      · simp [List.filter, List.find?, hp, h2, h4, ih]
      · have h3 : (a.1 != p) = true := bne_iff_ne.mpr hp
        simp [List.filter, List.find?, h3, h2, ih]

theorem fsGet_fsSet_ne (fs : FS) (p q : String) (x : FileData) (h : q ≠ p) :
    fsGet (fsSet fs p x) q = fsGet fs q := by
  have h2 : (p == q) = false := beq_eq_false_iff_ne.mpr (Ne.symm h)
  simp [fsGet, fsSet, List.find?, h2, find?_filter_ne fs p q h]

theorem needsDownload_fsSet_ne (fs : FS) (d : Drop) (p q : String)
    (x : FileData) (h : q ≠ p) :
    needsDownload (fsSet fs p x) d q = needsDownload fs d q := by
  simp [needsDownload, fsGet_fsSet_ne fs p q x h]

theorem withSuffix_length (p s : String) :
    (withSuffix p s).length
      = (pathDir p ++ ⟨(pathName p).toList.take (stemLength (pathName p).toList)⟩).length
        + s.length := by
  simp only [withSuffix]
  rw [String.length_append]

theorem withSuffix_info_ne_webloc (p : String) :
    withSuffix p ".webloc" ≠ withSuffix p ".info.json" := by
  intro h
  have h2 := congrArg String.length h
  rw [withSuffix_length, withSuffix_length] at h2
  have e1 : (".webloc" : String).length = 7 := rfl
  have e2 : (".info.json" : String).length = 10 := rfl
  rw [e1, e2] at h2
  omega

theorem getFieldOpt_cons_ne (k0 k : String) (v0 : JVal) (r : Record) (h : k0 ≠ k) :
    getFieldOpt ((k0, v0) :: r) k = getFieldOpt r k := by
  have hbeq : (k0 == k) = false := beq_eq_false_iff_ne.mpr h
  simp [getFieldOpt, List.find?, hbeq]

theorem getFieldOpt_cons_self (k : String) (v0 : JVal) (r : Record) :
    getFieldOpt ((k, v0) :: r) k = some v0 := by
  simp [getFieldOpt, List.find?]

/-- The processed record keeps the keys of the raw record, and the value
stored under a key is the processed value of the raw one. -/
theorem processRecord_getFieldOpt (r r2 : Record) (hp : processRecord r = .ok r2)
    (k : String) :
    (getFieldOpt r k = none → getFieldOpt r2 k = none)
    ∧ (∀ v, getFieldOpt r k = some v →
        ∃ v2, processField k v = .ok v2 ∧ getFieldOpt r2 k = some v2) := by
  induction r generalizing r2 with
  | nil =>
    cases hp
    exact ⟨fun _ => rfl, fun v hv => by simp [getFieldOpt] at hv⟩
  | cons a rest ih =>
    obtain ⟨k1, v1⟩ := a
    cases h1 : processField k1 v1 with
    | error e => simp [processRecord, h1] at hp
    | ok v1b =>
      cases h2 : processRecord rest with
      | error e => simp [processRecord, h1, h2] at hp
      | ok rest2 =>
        simp [processRecord, h1, h2] at hp
        subst hp
        by_cases hk : k1 = k
        · subst hk
          refine ⟨fun hnone => ?_, fun v hv => ?_⟩
          · rw [getFieldOpt_cons_self] at hnone
            exact absurd hnone (by simp)
          · rw [getFieldOpt_cons_self] at hv
            have hv1 : v1 = v := Option.some_injective _ hv
            exact ⟨v1b, hv1 ▸ h1, by rw [getFieldOpt_cons_self]⟩
        · rw [getFieldOpt_cons_ne k1 k v1 rest hk,
            getFieldOpt_cons_ne k1 k v1b rest2 hk]
          exact ih rest2 h2

/-- A strptime failure anywhere in the record aborts Drop._process. -/
theorem processRecord_error (pre post : Record) (k : String) (v : JVal)
    (hf : processField k v = .error ()) :
    processRecord (pre ++ (k, v) :: post) = .error () := by
  induction pre with
  | nil => simp [processRecord, hf]
  | cons a rest ih =>
    obtain ⟨k1, v1⟩ := a
    cases h1 : processField k1 v1 with
    | error e => simp [processRecord, h1]
    | ok v1b => simp [processRecord, h1, ih]

theorem getField_cons_ne (k0 k : String) (v0 : JVal) (r : Record) (h : k0 ≠ k) :
    getField ((k0, v0) :: r) k = getField r k := by
  have hbeq : (k0 == k) = false := beq_eq_false_iff_ne.mpr h
  simp [getField, getFieldOpt, List.find?, hbeq]

theorem firstNonNull_cons_notin (k0 : String) (v0 : JVal) (r : Record)
    (os : List String) (h : k0 ∉ os) :
    firstNonNull ((k0, v0) :: r) os = firstNonNull r os := by
  induction os with
  | nil => rfl
  | cons k ks ih =>
    have hk : k0 ≠ k := fun he => h (he ▸ List.mem_cons_self k ks)
    have hks : k0 ∉ ks := fun he => h (List.mem_cons_of_mem k he)
    simp [firstNonNull, getField_cons_ne k0 k v0 r hk, ih hks]

/-- Splitting the per page record loop at any position: the yields of the
two halves concatenate and the counter threads through. -/
theorem processPage_append (api : API) (ctr : Nat) (cnt : JVal)
    (rs1 rs2 : List Record) :
    processPage api ctr cnt (rs1 ++ rs2)
      = ((processPage api (processPage api ctr cnt rs1).1 cnt rs2).1,
         (processPage api ctr cnt rs1).2
           ++ (processPage api (processPage api ctr cnt rs1).1 cnt rs2).2) := by
  induction rs1 generalizing ctr with
  | nil => simp [processPage]
  | cons r rs ih =>
    cases h : constructBySlug api (getField r "slug") with
    | error e => simp [processPage, h, ih]
    | ok d => simp [processPage, h, ih]

/-! Concrete sample data used by the evaluation theorems. -/

/-- Remote service whose detail endpoint always succeeds with a minimal
record and whose content endpoint serves three bytes. -/
def sampleAPI : API :=
  { detail := fun _ => (200, [("slug", JVal.str "ab")]),
    contentOf := fun _ => [0, 0, 0] }

/-- Remote service whose detail endpoint always fails with status 404. -/
def api404 : API :=
  { detail := fun _ => (404, []),
    contentOf := fun _ => [] }

/-- A hydrated image drop with a declared size of five bytes, used to
exercise Drop.save. -/
def sampleDrop : Drop :=
  { id := .int 10, slug := .str "ab", uploaded := .dt 2021 5 3 10 15 0,
    type := .str "image", name := .str "photo.jpg", target := .null,
    original := .str "photo.jpg", views := .int 4,
    content := .str "https://content.example/x", _stats := .null,
    size := .int 5, favourite := .bool false,
    _data := [("slug", JVal.str "ab")] }

/-- A hydrated bookmark drop. -/
def bookmarkDrop : Drop :=
  { id := .int 11, slug := .str "bm", uploaded := .dt 2021 5 3 10 15 0,
    type := .str "bookmark", name := .str "link", target := .str "https://example.com/x",
    original := .str "link", views := .int 0, content := .null, _stats := .null,
    size := .null, favourite := .bool false,
    _data := [("slug", JVal.str "bm")] }

/-- Closed form of one Drop.save run on an explicit non empty path. -/
theorem save_eq (api : API) (fs : FS) (d : Drop) (p : String)
    (hp : (p == "") = false) :
    save api fs d (some p) =
      if d.type == JVal.str "bookmark" then
        (fsSet (fsSet fs (withSuffix p ".info.json") (.text (dumps d._data)))
           (withSuffix p ".webloc") (.plistData d.target),
         [Effect.mkdirParents (pathDir p),
          Effect.writeInfo (withSuffix p ".info.json") (dumps d._data),
          Effect.writeWebloc (withSuffix p ".webloc") d.target,
          Effect.utime (withSuffix p ".webloc") d.uploaded])
      else if needsDownload
          (fsSet fs (withSuffix p ".info.json") (.text (dumps d._data))) d p then
        (fsSet (fsSet fs (withSuffix p ".info.json") (.text (dumps d._data)))
           p (.binary (api.contentOf d.content)),
         [Effect.mkdirParents (pathDir p),
          Effect.writeInfo (withSuffix p ".info.json") (dumps d._data),
          Effect.download d.content p,
          Effect.utime p d.uploaded])
      else
        (fsSet fs (withSuffix p ".info.json") (.text (dumps d._data)),
         [Effect.mkdirParents (pathDir p),
          Effect.writeInfo (withSuffix p ".info.json") (dumps d._data),
          Effect.utime p d.uploaded]) := by
  simp only [save, hp]
  rfl

/-- C1: the claim states that enumeration over N pages of K records each
yields exactly N times K results.  The generator tests the next page link
of the current response BEFORE iterating its records, so the terminal page
(the one without a next link) is never processed: two pages of one record
each yield a single result, and a single page without a next link yields
nothing at all, contradicting the claim (and the docstring promising all
available drops). -/
theorem c1_terminal_page_records_dropped :
    (enumPages sampleAPI 0
        [{ data := [[("slug", JVal.str "ab")]], next := some "page2",
           count := JVal.int 2 },
         { data := [[("slug", JVal.str "cd")]], next := none,
           count := JVal.int 2 }]).length = 1
    ∧ enumPages sampleAPI 0
        [{ data := [[("slug", JVal.str "ab")]], next := none,
           count := JVal.int 1 }] = [] := by
  exact ⟨rfl, rfl⟩

/-- C3 (counterexample): the claim states that the metadata snapshot is
written at the name obtained by APPENDING .info.json, retaining any
extension of the original filename.  Saving to a destination whose name is
photo.jpg writes the snapshot at photo.info.json and nothing exists at
photo.jpg.info.json: with_suffix replaces the extension. -/
theorem c3_counterexample :
    fsGet (save sampleAPI [] sampleDrop (some "2021/5/3/10--ab--image--photo.jpg")).1
        "2021/5/3/10--ab--image--photo.jpg.info.json" = none
    ∧ fsGet (save sampleAPI [] sampleDrop (some "2021/5/3/10--ab--image--photo.jpg")).1
        "2021/5/3/10--ab--image--photo.info.json"
        = some (.text (dumps sampleDrop._data)) := by
  exact ⟨rfl, rfl⟩

/-- C3 (amended): for every destination path, save writes the metadata
snapshot (the raw data serialized with sorted keys) to the path obtained
by REPLACING the final extension of the destination name, when there is
one, with .info.json (the suffix is appended only when the name has no
extension), always overwriting whatever was there. -/
theorem c3_info_snapshot_written (api : API) (fs : FS) (d : Drop) (p : String)
    (hp : p ≠ "") (hcol : withSuffix p ".info.json" ≠ p) :
    fsGet (save api fs d (some p)).1 (withSuffix p ".info.json")
      = some (.text (dumps d._data))
    ∧ Effect.writeInfo (withSuffix p ".info.json") (dumps d._data)
        ∈ (save api fs d (some p)).2 := by
  have hpb : (p == "") = false := beq_eq_false_iff_ne.mpr hp
  rw [save_eq api fs d p hpb]
  by_cases ht : (d.type == JVal.str "bookmark") = true
  · rw [if_pos ht]
    refine ⟨?_, by simp⟩
    rw [fsGet_fsSet_ne _ _ _ _ (Ne.symm (withSuffix_info_ne_webloc p))]
    exact fsGet_fsSet_self _ _ _
  · rw [if_neg ht]
    by_cases hn : needsDownload
        (fsSet fs (withSuffix p ".info.json") (.text (dumps d._data))) d p = true
    · rw [if_pos hn]
      refine ⟨?_, by simp⟩
      rw [fsGet_fsSet_ne _ _ _ _ hcol]
      exact fsGet_fsSet_self _ _ _
    · rw [if_neg hn]
      exact ⟨fsGet_fsSet_self _ _ _, by simp⟩

/-- C3 (amended) at a concrete input: both hypotheses hold for the
plain destination name x. -/
theorem c3_info_snapshot_written_witness :
    fsGet (save sampleAPI [] sampleDrop (some "x")).1 (withSuffix "x" ".info.json")
      = some (.text (dumps sampleDrop._data))
    ∧ Effect.writeInfo (withSuffix "x" ".info.json") (dumps sampleDrop._data)
        ∈ (save sampleAPI [] sampleDrop (some "x")).2 :=
  c3_info_snapshot_written sampleAPI [] sampleDrop "x" (by decide) (by decide)

/-- Recognizer for utime effects. -/
def isUtime : Effect → Bool
  | .utime _ _ => true
  | _ => false

/-- C4 (counterexample): the claim states that every file produced by a
save, the metadata snapshot included, gets its timestamps set to the
upload time.  A concrete non bookmark save produces exactly one utime
effect, on the content path, and none on the freshly written snapshot
path. -/
theorem c4_counterexample :
    (save sampleAPI [] sampleDrop (some "x")).2
      = [Effect.mkdirParents "",
         Effect.writeInfo "x.info.json" (dumps sampleDrop._data),
         Effect.download (JVal.str "https://content.example/x") "x",
         Effect.utime "x" (JVal.dt 2021 5 3 10 15 0)]
    ∧ ("x.info.json" : String) ≠ "x" := by
  exact ⟨rfl, by decide⟩

/-- C4 (amended): a save run applies utime exactly once, to the file the
target variable points at when the run ends: the .webloc path for
bookmarks and the content path otherwise, with the recorded upload time;
the metadata snapshot keeps its write time. -/
theorem c4_timestamp_on_final_target_only (api : API) (fs : FS) (d : Drop)
    (p : String) (hp : p ≠ "") :
    ((save api fs d (some p)).2.filter isUtime)
      = [Effect.utime
          (if d.type == JVal.str "bookmark" then withSuffix p ".webloc" else p)
          d.uploaded] := by
  have hpb : (p == "") = false := beq_eq_false_iff_ne.mpr hp
  rw [save_eq api fs d p hpb]
  by_cases ht : (d.type == JVal.str "bookmark") = true
  · rw [if_pos ht, if_pos ht]
    simp [List.filter, isUtime]
  · rw [if_neg ht, if_neg ht]
    by_cases hn : needsDownload
        (fsSet fs (withSuffix p ".info.json") (.text (dumps d._data))) d p = true
    · rw [if_pos hn]
      simp [List.filter, isUtime]
    · rw [if_neg hn]
      simp [List.filter, isUtime]

/-- C4 (amended) at a concrete input. -/
theorem c4_timestamp_on_final_target_only_witness :
    ((save sampleAPI [] sampleDrop (some "x")).2.filter isUtime)
      = [Effect.utime
          (if sampleDrop.type == JVal.str "bookmark" then withSuffix "x" ".webloc" else "x")
          sampleDrop.uploaded] :=
  c4_timestamp_on_final_target_only sampleAPI [] sampleDrop "x" (by decide)

/-- A drop with a declared content_length of zero. -/
def zeroSizeDrop : Drop :=
  { sampleDrop with size := .int 0 }

/-- C10: a declared size of zero is falsy in the skip condition, exactly
like a null size, so for a non bookmark item whose content file already
exists the download is skipped regardless of the actual on disk size, and
the existing file is left untouched. -/
theorem c10_zero_size_skips_download (api : API) (fs : FS) (d : Drop)
    (p : String) (f : FileData) (u : JVal) (q : String)
    (h0 : d.size = JVal.int 0) (hb : (d.type == JVal.str "bookmark") = false)
    (hp : p ≠ "") (hcol : withSuffix p ".info.json" ≠ p)
    (hex : fsGet fs p = some f) :
    Effect.download u q ∉ (save api fs d (some p)).2
    ∧ fsGet (save api fs d (some p)).1 p = some f := by
  have hpb : (p == "") = false := beq_eq_false_iff_ne.mpr hp
  rw [save_eq api fs d p hpb]
  have htf : ¬ ((d.type == JVal.str "bookmark") = true) := by simp [hb]
  have hneed : needsDownload
      (fsSet fs (withSuffix p ".info.json") (.text (dumps d._data))) d p = false := by
    rw [needsDownload, fsGet_fsSet_ne _ _ _ _ (Ne.symm hcol), hex, h0]
    simp [truthy]
  rw [if_neg htf, if_neg (by simp [hneed])]
  refine ⟨by simp, ?_⟩
  rw [fsGet_fsSet_ne _ _ _ _ (Ne.symm hcol)]
  exact hex

/-- C10 at a concrete input: the existing content file holds seven bytes,
definitely not the declared zero, and the download is still skipped. -/
theorem c10_zero_size_skips_download_witness :
    Effect.download JVal.null "y"
        ∉ (save sampleAPI [("x", FileData.binary [1, 2, 3, 4, 5, 6, 7])]
            zeroSizeDrop (some "x")).2
    ∧ fsGet (save sampleAPI [("x", FileData.binary [1, 2, 3, 4, 5, 6, 7])]
          zeroSizeDrop (some "x")).1 "x"
        = some (FileData.binary [1, 2, 3, 4, 5, 6, 7]) :=
  c10_zero_size_skips_download sampleAPI [("x", FileData.binary [1, 2, 3, 4, 5, 6, 7])]
    zeroSizeDrop "x" (FileData.binary [1, 2, 3, 4, 5, 6, 7]) JVal.null "y"
    rfl rfl (by decide) (by decide) rfl

/-- A drop whose declared size matches the three byte sample content. -/
def sizedDrop : Drop :=
  { sampleDrop with size := .int 3 }

/-- C2 (counterexample): the claim states that a second save never
re-invokes the content download.  With a declared size of five bytes and a
remote content of three bytes, the second save sees a three byte file,
compares it to the declared five, and downloads again. -/
theorem c2_counterexample :
    Effect.download (JVal.str "https://content.example/x") "x"
      ∈ (save sampleAPI (save sampleAPI [] sampleDrop (some "x")).1
          sampleDrop (some "x")).2 := by
  decide

/-- C2 (amended): when the declared size is falsy (null or zero) or equals
the actual length of the remote content, a save followed by a re-save with
unchanged remote data performs no second content download, leaves the
content path with the same contents (hence identical size), and writes the
identical metadata snapshot bytes on both runs. -/
theorem c2_idempotent_resave (api : API) (fs : FS) (d : Drop) (p : String)
    (u : JVal) (q : String) (hp : p ≠ "")
    (hcol : withSuffix p ".info.json" ≠ p)
    (hsz : truthy d.size = false
      ∨ d.size = JVal.int (api.contentOf d.content).length) :
    Effect.download u q ∉ (save api (save api fs d (some p)).1 d (some p)).2
    ∧ fsGet (save api (save api fs d (some p)).1 d (some p)).1 p
        = fsGet (save api fs d (some p)).1 p
    ∧ fsGet (save api (save api fs d (some p)).1 d (some p)).1
        (withSuffix p ".info.json") = some (.text (dumps d._data))
    ∧ fsGet (save api fs d (some p)).1 (withSuffix p ".info.json")
        = some (.text (dumps d._data)) := by
  have hpb : (p == "") = false := beq_eq_false_iff_ne.mpr hp
  have hpi : p ≠ withSuffix p ".info.json" := Ne.symm hcol
  have hwi : withSuffix p ".info.json" ≠ withSuffix p ".webloc" :=
    Ne.symm (withSuffix_info_ne_webloc p)
  by_cases ht : (d.type == JVal.str "bookmark") = true
  · have e1 := save_eq api fs d p hpb
    rw [if_pos ht] at e1
    rw [e1]
    have e2 := save_eq api
      (fsSet (fsSet fs (withSuffix p ".info.json") (.text (dumps d._data)))
        (withSuffix p ".webloc") (.plistData d.target)) d p hpb
    rw [if_pos ht] at e2
    rw [e2]
    refine ⟨by simp, ?_, ?_, ?_⟩
    · by_cases hpw : p = withSuffix p ".webloc"
      · rw [← hpw, fsGet_fsSet_self, fsGet_fsSet_self]
      · rw [fsGet_fsSet_ne _ _ _ _ hpw, fsGet_fsSet_ne _ _ _ _ hpi]
    · rw [fsGet_fsSet_ne _ _ _ _ hwi]
      exact fsGet_fsSet_self _ _ _
    · rw [fsGet_fsSet_ne _ _ _ _ hwi]
      exact fsGet_fsSet_self _ _ _
  · have e1 := save_eq api fs d p hpb
    rw [if_neg ht] at e1
    by_cases hn : needsDownload
        (fsSet fs (withSuffix p ".info.json") (.text (dumps d._data))) d p = true
    · rw [if_pos hn] at e1
      rw [e1]
      have need2 : needsDownload
          (fsSet (fsSet (fsSet fs (withSuffix p ".info.json") (.text (dumps d._data)))
              p (.binary (api.contentOf d.content)))
            (withSuffix p ".info.json") (.text (dumps d._data))) d p = false := by
        rw [needsDownload, fsGet_fsSet_ne _ _ _ _ hpi, fsGet_fsSet_self]
        rcases hsz with hs | hs
        · rw [hs]
          rfl
        · rw [hs]
          simp only [truthy, sizeNe, fileSize, bne_self_eq_false, Bool.and_false]
      have e2 := save_eq api
        (fsSet (fsSet fs (withSuffix p ".info.json") (.text (dumps d._data)))
          p (.binary (api.contentOf d.content))) d p hpb
      rw [if_neg ht, if_neg (by simp [need2])] at e2
      rw [e2]
      refine ⟨by simp, ?_, ?_, ?_⟩
      · rw [fsGet_fsSet_ne _ _ _ _ hpi]
      · exact fsGet_fsSet_self _ _ _
      · rw [fsGet_fsSet_ne _ _ _ _ hcol]
        exact fsGet_fsSet_self _ _ _
    · rw [if_neg hn] at e1
      rw [e1]
      have hnf : needsDownload
          (fsSet fs (withSuffix p ".info.json") (.text (dumps d._data))) d p
            = false := by
        revert hn
        cases needsDownload
            (fsSet fs (withSuffix p ".info.json") (.text (dumps d._data))) d p
        · intro _; rfl
        · intro hc; exact absurd rfl hc
      have need2 : needsDownload
          (fsSet (fsSet fs (withSuffix p ".info.json") (.text (dumps d._data)))
            (withSuffix p ".info.json") (.text (dumps d._data))) d p = false := by
        rw [needsDownload_fsSet_ne _ _ _ _ _ hpi]
        exact hnf
      have e2 := save_eq api
        (fsSet fs (withSuffix p ".info.json") (.text (dumps d._data))) d p hpb
      rw [if_neg ht, if_neg (by simp [need2])] at e2
      rw [e2]
      refine ⟨by simp, ?_, ?_, ?_⟩
      · rw [fsGet_fsSet_ne _ _ _ _ hpi]
      · exact fsGet_fsSet_self _ _ _
      · exact fsGet_fsSet_self _ _ _

/-- C2 (amended) at a concrete input: declared size matching the three
byte remote content. -/
theorem c2_idempotent_resave_witness :
    Effect.download JVal.null "z"
        ∉ (save sampleAPI (save sampleAPI [] sizedDrop (some "x")).1
            sizedDrop (some "x")).2
    ∧ fsGet (save sampleAPI (save sampleAPI [] sizedDrop (some "x")).1
          sizedDrop (some "x")).1 "x"
        = fsGet (save sampleAPI [] sizedDrop (some "x")).1 "x"
    ∧ fsGet (save sampleAPI (save sampleAPI [] sizedDrop (some "x")).1
          sizedDrop (some "x")).1 (withSuffix "x" ".info.json")
        = some (.text (dumps sizedDrop._data))
    ∧ fsGet (save sampleAPI [] sizedDrop (some "x")).1 (withSuffix "x" ".info.json")
        = some (.text (dumps sizedDrop._data)) :=
  c2_idempotent_resave sampleAPI [] sizedDrop "x" JVal.null "z"
    (by decide) (by decide) (Or.inr rfl)

/-- Status unfolding of Drop.__init__ when the detail fetch succeeds. -/
theorem constructBySlug_ok_status (api : API) (slug : JVal)
    (h : (api.detail slug).1 = codes_ok) :
    constructBySlug api slug
      = (match applyMap (api.detail slug).2 with
         | .ok d => .ok d
         | .error _ => .error .normalizationFailure) := by
  simp only [constructBySlug]
  rw [if_neg (not_not_intro h)]

/-- Status unfolding of Drop.__init__ when the detail fetch fails. -/
theorem constructBySlug_bad_status (api : API) (slug : JVal)
    (h : (api.detail slug).1 ≠ codes_ok) :
    constructBySlug api slug = .error (.retrieval (api.detail slug).1) := by
  simp only [constructBySlug]
  rw [if_pos h]

/-- C5: construction by identifier raises the retrieval error carrying the
observed status code exactly when the detail status is not OK; during
enumeration a record whose construction fails is yielded raw in its
position while earlier and later records of the page are processed
normally, pages with a next link keep the enumeration going, and a direct
client lookup is the same construction with nothing catching the error. -/
theorem c5_retrieval_error_handling (api : API) (slug : JVal) (s : String)
    (r : Record) (rs1 rs2 : List Record) (ctr : Nat) (cnt : JVal)
    (e : ConstructError) (c : Nat) (p : Page) (rest : List Page) (c0 : Nat)
    (he : constructBySlug api (getField r "slug") = .error e)
    (hn : hasNext p = true) :
    (constructBySlug api slug = .error (.retrieval (api.detail slug).1)
      ↔ (api.detail slug).1 ≠ codes_ok)
    ∧ (constructBySlug api slug = .error (.retrieval c) → c = (api.detail slug).1)
    ∧ (processPage api ctr cnt (rs1 ++ r :: rs2)).2
        = (processPage api ctr cnt rs1).2
          ++ .raw r
            :: (processPage api (processPage api ctr cnt rs1).1 cnt rs2).2
    ∧ clientLookup api s = constructBySlug api (.str s)
    ∧ enumPages api c0 (p :: rest)
        = (processPage api c0 p.count p.data).2
          ++ enumPages api (processPage api c0 p.count p.data).1 rest := by
  refine ⟨⟨fun h => ?_, fun h => constructBySlug_bad_status api slug h⟩,
    fun h => ?_, ?_, rfl, ?_⟩
  · intro hst
    rw [constructBySlug_ok_status api slug hst] at h
    cases happ : applyMap (api.detail slug).2 with
    | ok d => rw [happ] at h; exact absurd h (by simp)
    | error er => rw [happ] at h; simp at h
  · by_cases hst : (api.detail slug).1 = codes_ok
    · rw [constructBySlug_ok_status api slug hst] at h
      cases happ : applyMap (api.detail slug).2 with
      | ok d => rw [happ] at h; exact absurd h (by simp)
      | error er => rw [happ] at h; simp at h
    · rw [constructBySlug_bad_status api slug hst] at h
      simp only [Except.error.injEq, ConstructError.retrieval.injEq] at h
      exact h.symm
  · rw [processPage_append]
    simp [processPage, he]
  · simp [enumPages, hn]

/-- C5 at a concrete input: against a service answering 404 everywhere,
the failing record is yielded raw in its position on the page. -/
theorem c5_retrieval_error_handling_witness :
    (processPage api404 0 (JVal.int 1) ([] ++ [("slug", JVal.str "zz")] :: [])).2
      = (processPage api404 0 (JVal.int 1) []).2
        ++ .raw [("slug", JVal.str "zz")]
          :: (processPage api404 (processPage api404 0 (JVal.int 1) []).1
              (JVal.int 1) []).2 :=
  (c5_retrieval_error_handling api404 (JVal.str "zz") "zz"
    [("slug", JVal.str "zz")] [] [] 0 (JVal.int 1) (.retrieval 404) 404
    { data := [], next := some "u", count := JVal.int 1 } [] 0
    rfl rfl).2.2.1

/-- Shape of processField on a non empty string under a timestamp key. -/
theorem processField_at_key (k : String) (hk : strEndsWith k "_at" = true)
    (w : String) (hw : w ≠ "") :
    processField k (.str w)
      = (match parseDT (rstripZ w) with
         | some d => .ok d
         | none =>
           match parseD w with
           | some d => .ok d
           | none => .error ()) := by
  have hkne : k ≠ "file_name" := by
    intro he
    subst he
    exact absurd hk (by decide)
  have hkf : (k == "file_name") = false := beq_eq_false_iff_ne.mpr hkne
  have hwb : (w != "") = true := bne_iff_ne.mpr hw
  simp only [processField, hkf, Bool.false_eq_true, if_false, hk, hwb,
    Bool.and_self, if_true]

/-- C6: a raw field whose key carries the _at suffix and whose value is a
non empty string is parsed first with the strict full timestamp pattern
after stripping trailing Z characters, the Z form and the bare form
agreeing; on failure the date only pattern applies to the original value,
yielding midnight; and when both patterns fail the construction of the
item fails with an error. -/
theorem c6_timestamp_parsing (k v : String) (y mo dd : Nat) (t : JVal)
    (api : API) (slug : JVal) (pre post : Record)
    (hk : strEndsWith k "_at" = true) (hv : v ≠ "") :
    (parseDT (rstripZ v) = some t → processField k (.str v) = .ok t)
    ∧ processField k (.str "2021-05-03T10:15:00Z")
        = processField k (.str "2021-05-03T10:15:00")
    ∧ processField k (.str "2021-05-03T10:15:00Z") = .ok (.dt 2021 5 3 10 15 0)
    ∧ processField k (.str "2021-05-03") = .ok (.dt 2021 5 3 0 0 0)
    ∧ (parseDT (rstripZ v) = none → parseD v = some (.dt y mo dd 0 0 0)
        → processField k (.str v) = .ok (.dt y mo dd 0 0 0))
    ∧ (parseDT (rstripZ v) = none → parseD v = none
        → processField k (.str v) = .error ())
    ∧ (parseDT (rstripZ v) = none → parseD v = none
        → api.detail slug = (codes_ok, pre ++ (k, JVal.str v) :: post)
        → constructBySlug api slug = .error .normalizationFailure) := by
  refine ⟨fun h => ?_, ?_, ?_, ?_, fun h1 h2 => ?_, fun h1 h2 => ?_,
    fun h1 h2 hdet => ?_⟩
  · rw [processField_at_key k hk v hv, h]
  · rw [processField_at_key k hk _ (by decide), processField_at_key k hk _ (by decide)]
    rfl
  · rw [processField_at_key k hk _ (by decide)]
    rfl
  · rw [processField_at_key k hk _ (by decide)]
    rfl
  · rw [processField_at_key k hk v hv, h1, h2]
  · rw [processField_at_key k hk v hv, h1, h2]
  · have hst : (api.detail slug).1 = codes_ok := by rw [hdet]
    rw [constructBySlug_ok_status api slug hst]
    have hbody : (api.detail slug).2 = pre ++ (k, JVal.str v) :: post := by
      rw [hdet]
    rw [hbody]
    have hfield : processField k (JVal.str v) = .error () := by
      rw [processField_at_key k hk v hv, h1, h2]
    have happ : applyMap (pre ++ (k, JVal.str v) :: post) = .error () := by
      simp only [applyMap, processRecord_error pre post k (JVal.str v) hfield]
    rw [happ]

/-- C6 at a concrete input: the created_at key with the Z suffixed
timestamp of the claim. -/
theorem c6_timestamp_parsing_witness :
    processField "created_at" (.str "2021-05-03T10:15:00Z")
      = .ok (.dt 2021 5 3 10 15 0) :=
  (c6_timestamp_parsing "created_at" "junk" 2021 5 3 (JVal.dt 2021 5 3 0 0 0)
    sampleAPI JVal.null [] [] rfl (by decide)).2.2.1

/-- C7: every canonical attribute of the mapping table receives the value
of the first candidate raw key present with a non null value, in declared
priority order; when no candidate matches the attribute is explicitly set
to null; and keys outside the candidate list of an entry cannot influence
the value of that entry. -/
theorem c7_field_mapping (r r2 : Record) (os : List String) (dest : String)
    (d : Drop) (k0 k : String) (v0 : JVal) (ks : List String)
    (hmem : (os, dest) ∈ json_map) (hproc : processRecord r = .ok r2)
    (hd : applyMap r = .ok d) (hnotin : k0 ∉ os) :
    attrOf d dest = firstNonNull r2 os
    ∧ firstNonNull r2 [] = .null
    ∧ firstNonNull r2 (k :: ks)
        = (if getField r2 k != .null then getField r2 k else firstNonNull r2 ks)
    ∧ firstNonNull ((k0, v0) :: r2) os = firstNonNull r2 os := by
  have hd2 : d = mkDrop r2 := by
    simp only [applyMap, hproc] at hd
    exact (Except.ok.injEq _ _ ▸ hd).symm
  subst hd2
  refine ⟨?_, rfl, rfl, firstNonNull_cons_notin k0 v0 r2 os hnotin⟩
  simp only [json_map, List.mem_cons, List.not_mem_nil, or_false,
    Prod.mk.injEq] at hmem
  rcases hmem with ⟨h1, h2⟩ | ⟨h1, h2⟩ | ⟨h1, h2⟩ | ⟨h1, h2⟩ | ⟨h1, h2⟩ |
    ⟨h1, h2⟩ | ⟨h1, h2⟩ | ⟨h1, h2⟩ | ⟨h1, h2⟩ | ⟨h1, h2⟩ | ⟨h1, h2⟩ | ⟨h1, h2⟩ <;>
      subst h1 <;> subst h2 <;> rfl

/-- C7 at a concrete input: the content attribute picks source_url ahead
of remote_url. -/
theorem c7_field_mapping_witness :
    attrOf (mkDrop [("source_url", JVal.str "u")]) "content"
      = firstNonNull [("source_url", JVal.str "u")] ["source_url", "remote_url"] :=
  (c7_field_mapping [("source_url", JVal.str "u")] [("source_url", JVal.str "u")]
    ["source_url", "remote_url"] "content" (mkDrop [("source_url", JVal.str "u")])
    "other" "name" JVal.null [] (by decide) rfl rfl (by decide)).1

/-- C8: a bookmark save writes the binary property list holding the
target under the URL key at the webloc path and downloads nothing; a non
bookmark save that is not skipped downloads the content to the target path
and writes no webloc file. -/
theorem c8_bookmark_vs_content (api : API) (fs : FS) (d : Drop) (p : String)
    (u url : JVal) (q w : String) (hp : p ≠ "") :
    ((d.type == JVal.str "bookmark") = true →
      fsGet (save api fs d (some p)).1 (withSuffix p ".webloc")
          = some (.plistData d.target)
      ∧ Effect.writeWebloc (withSuffix p ".webloc") d.target
          ∈ (save api fs d (some p)).2
      ∧ Effect.download u q ∉ (save api fs d (some p)).2)
    ∧ ((d.type == JVal.str "bookmark") = false → d.content ≠ JVal.null →
      needsDownload (fsSet fs (withSuffix p ".info.json") (.text (dumps d._data)))
          d p = true →
      Effect.download d.content p ∈ (save api fs d (some p)).2
      ∧ fsGet (save api fs d (some p)).1 p
          = some (.binary (api.contentOf d.content))
      ∧ Effect.writeWebloc w url ∉ (save api fs d (some p)).2) := by
  have hpb : (p == "") = false := beq_eq_false_iff_ne.mpr hp
  constructor
  · intro ht
    have e1 := save_eq api fs d p hpb
    rw [if_pos ht] at e1
    rw [e1]
    exact ⟨fsGet_fsSet_self _ _ _, by simp, by simp⟩
  · intro ht _ hn
    have e1 := save_eq api fs d p hpb
    rw [if_neg (by simp [ht]), if_pos hn] at e1
    rw [e1]
    exact ⟨by simp, fsGet_fsSet_self _ _ _, by simp⟩

/-- C8 at a concrete input: the bookmark drop produces the webloc entry
and no download. -/
theorem c8_bookmark_vs_content_witness :
    fsGet (save sampleAPI [] bookmarkDrop (some "b")).1 (withSuffix "b" ".webloc")
        = some (.plistData bookmarkDrop.target)
    ∧ Effect.writeWebloc (withSuffix "b" ".webloc") bookmarkDrop.target
        ∈ (save sampleAPI [] bookmarkDrop (some "b")).2
    ∧ Effect.download JVal.null "z" ∉ (save sampleAPI [] bookmarkDrop (some "b")).2 :=
  (c8_bookmark_vs_content sampleAPI [] bookmarkDrop "b" JVal.null JVal.null
    "z" "w" (by decide)).1 rfl

/-- C9 (counterexample): the claim states that the original attribute is
percent decoded whichever candidate key supplied it.  A record carrying
the escaped name only under the name key keeps the escape verbatim, while
percent decoding it would give a different string. -/
theorem c9_counterexample :
    (applyMap [("name", JVal.str "a%20b")]).toOption.map Drop.original
      = some (JVal.str "a%20b")
    ∧ unquote "a%20b" = "a b"
    ∧ JVal.str "a%20b" ≠ JVal.str "a b" := by
  exact ⟨rfl, rfl, by decide⟩

/-- C9 (amended): the original attribute is the percent decoded raw value
only when the file_name key supplies it; when file_name is absent or null
and the name key supplies the value, it is taken verbatim with no percent
decoding. -/
theorem c9_original_decoding (r r2 : Record) (d : Drop) (s t : String)
    (hproc : processRecord r = .ok r2) (hd : applyMap r = .ok d) :
    (getFieldOpt r "file_name" = some (JVal.str s)
      → d.original = JVal.str (unquote s))
    ∧ (getField r "file_name" = JVal.null
      → getFieldOpt r "name" = some (JVal.str t)
      → d.original = JVal.str t) := by
  have hd2 : d = mkDrop r2 := by
    simp only [applyMap, hproc] at hd
    exact (Except.ok.injEq _ _ ▸ hd).symm
  subst hd2
  have hspec := processRecord_getFieldOpt r r2 hproc
  constructor
  · intro h
    obtain ⟨v2, hpv, hget⟩ := (hspec "file_name").2 (JVal.str s) h
    have hv2 : v2 = JVal.str (unquote s) := by
      have : processField "file_name" (JVal.str s) = .ok (JVal.str (unquote s)) := rfl
      rw [this] at hpv
      exact (Except.ok.injEq _ _ ▸ hpv).symm
    subst hv2
    show firstNonNull r2 ["file_name", "name"] = JVal.str (unquote s)
    have hgf : getField r2 "file_name" = JVal.str (unquote s) := by
      rw [getField, hget]
      rfl
    simp only [firstNonNull, hgf]
    rfl
  · intro h1 h2
    have hnull : getField r2 "file_name" = JVal.null := by
      rw [getField] at h1 ⊢
      cases ho : getFieldOpt r "file_name" with
      | none => rw [(hspec "file_name").1 ho]; rfl
      | some v =>
        have hv : v = JVal.null := by rw [ho] at h1; exact h1
        subst hv
        obtain ⟨v2, hpv, hget⟩ := (hspec "file_name").2 JVal.null ho
        have : processField "file_name" JVal.null = .ok JVal.null := rfl
        rw [this] at hpv
        have hv2 : v2 = JVal.null := (Except.ok.injEq _ _ ▸ hpv).symm
        subst hv2
        rw [hget]
        rfl
    obtain ⟨v2, hpv, hget⟩ := (hspec "name").2 (JVal.str t) h2
    have hv2 : v2 = JVal.str t := by
      have : processField "name" (JVal.str t) = .ok (JVal.str t) := rfl
      rw [this] at hpv
      exact (Except.ok.injEq _ _ ▸ hpv).symm
    subst hv2
    have hgn : getField r2 "name" = JVal.str t := by
      rw [getField, hget]
      rfl
    show firstNonNull r2 ["file_name", "name"] = JVal.str t
    simp only [firstNonNull, hnull, hgn]
    rfl

/-- C9 (amended) at a concrete input: the escaped file_name is decoded. -/
theorem c9_original_decoding_witness :
    (mkDrop [("file_name", JVal.str "a b")]).original
      = JVal.str (unquote "a%20b") :=
  (c9_original_decoding [("file_name", JVal.str "a%20b")]
    [("file_name", JVal.str "a b")] (mkDrop [("file_name", JVal.str "a b")])
    "a%20b" "t" rfl rfl).1 rfl

end CLRescue
